import Mathlib

/-!
Shallow embedding of the Ant System optimization core of `script.js`
(ACO visual demo for the Traveling Salesman Problem).

JavaScript numbers are modelled as real numbers, the pheromone object
`pher` (a JS object keyed by `edgeKey` strings) as an association list
`List (String × ℝ)` with JS assignment/lookup semantics, `Set` as
`Finset ℕ`, and `Infinity` (the initial `bestDist`) as `⊤ : WithTop ℝ`.
`Math.random()` draws are supplied as oracle functions: each ant gets a
starting index (the code computes `Math.floor(Math.random()*n) < n`)
and a stream of uniform draws in `[0,1)` used by the roulette wheel.
The `while (visited.size < n)` loop is embedded with explicit fuel;
fuel sufficiency is proved, not assumed.
-/

namespace ACO

/-- A city: `{x, y}` in the `cities` array of `script.js`. -/
structure City where
  x : ℝ
  y : ℝ

/-- `distance(a,b) = Math.hypot(a.x-b.x, a.y-b.y)` from `script.js`. -/
noncomputable def distance (a b : City) : ℝ :=
  Real.sqrt ((a.x - b.x) ^ 2 + (a.y - b.y) ^ 2)

/-- `edgeKey(a,b){ return a<b ? a+"-"+b : b+"-"+a }` from `script.js`. -/
def edgeKey (a b : ℕ) : String :=
  if a < b then Nat.repr a ++ "-" ++ Nat.repr b else Nat.repr b ++ "-" ++ Nat.repr a

/-- The pheromone store: the JS object `pher`, keyed by edge-key strings. -/
abbrev Pher := List (String × ℝ)

/-- JS property lookup `pher[k]`: `undefined` becomes `none`. -/
def objGet (m : Pher) (k : String) : Option ℝ :=
  (m.find? (fun p => p.1 == k)).map (fun p => p.2)

/-- JS property assignment `pher[k] = v`: overwrite in place, or append a new key. -/
def objSet : Pher → String → ℝ → Pher
  | [], k, v => [(k, v)]
  | p :: rest, k, v => if p.1 = k then (k, v) :: rest else p :: objSet rest k v

/-- `pher[key] || 0.0001`: JS `||` falls through on `undefined` and on `0` (falsy). -/
noncomputable def falsyOr (o : Option ℝ) (d : ℝ) : ℝ :=
  match o with
  | none => d
  | some v => if v = 0 then d else v

/-- `initPheromones()` from `script.js`: for `i < j < n`, set `pher[edgeKey(i,j)] = 1.0`. -/
def initPheromones (n : ℕ) : Pher :=
  (List.range n).foldl
    (fun m i => (List.range' (i + 1) (n - (i + 1))).foldl
      (fun mm j => objSet mm (edgeKey i j) 1) m) []

/-- The evaporation loop `for (const k in pher) pher[k] *= (1 - rho)`. -/
def evaporate : Pher → ℝ → Pher
  | [], _ => []
  | p :: rest, rho => (p.1, p.2 * (1 - rho)) :: evaporate rest rho

/-- One tour's deposit loop: `pher[edgeKey(t[i],t[i+1])] = (pher[k] || 0) + delta`
for each consecutive pair of the closed tour. (An existing level `0` passes
through `|| 0` unchanged, so the numeric result is `getD 0 + delta`.) -/
def depositTour : Pher → List ℕ → ℝ → Pher
  | m, a :: b :: rest, delta =>
      depositTour (objSet m (edgeKey a b) ((objGet m (edgeKey a b)).getD 0 + delta))
        (b :: rest) delta
  | m, _, _ => m

/-- `D += distance(cities[tour[t]], cities[tour[t+1]])` over consecutive pairs. -/
noncomputable def tourLen (cities : List City) : List ℕ → ℝ
  | a :: b :: rest =>
      distance (cities.getD a ⟨0, 0⟩) (cities.getD b ⟨0, 0⟩) + tourLen cities (b :: rest)
  | _ => 0

/-- Desirability `val = tau^alpha * eta^beta` of candidate `j` from city `cur`:
`tau = Math.max(pher[key] || 0.0001, 1e-6)`, `eta = 1/(distance + 1e-6)`.
Powers are real (`Math.pow`) since `alpha`, `beta` come from sliders. -/
noncomputable def candVal (cities : List City) (m : Pher) (alpha beta : ℝ)
    (cur j : ℕ) : ℝ :=
  let tau := max (falsyOr (objGet m (edgeKey cur j)) 0.0001) 0.000001
  let eta := 1 / (distance (cities.getD cur ⟨0, 0⟩) (cities.getD j ⟨0, 0⟩) + 0.000001)
  tau ^ alpha * eta ^ beta

/-- The `probs` array built by the inner `for (j...)` loop: all unvisited `j`
(in increasing order) paired with their desirability. -/
noncomputable def probsOf (cities : List City) (m : Pher) (alpha beta : ℝ)
    (visited : Finset ℕ) (cur : ℕ) : List (ℕ × ℝ) :=
  ((List.range cities.length).filter (fun j => decide (j ∉ visited))).map
    (fun j => (j, candVal cities m alpha beta cur j))

/-- The roulette `for (const p of probs)` loop body: subtract `p.val` from `r`,
stop at the first candidate where the remainder is `≤ 0`; `chosen` holds the
current fallback (initialized by the caller to `probs[0].j`). -/
noncomputable def rouletteLoop : List (ℕ × ℝ) → ℕ → ℝ → ℕ
  | [], chosen, _ => chosen
  | p :: rest, chosen, r => if r - p.2 ≤ 0 then p.1 else rouletteLoop rest chosen (r - p.2)

/-- The full roulette selection: `chosen` starts as `probs[0].j`.
(`script.js` reads `probs[0].j` unconditionally, so `probs` must be nonempty;
the head default is irrelevant junk on the empty list.) -/
noncomputable def roulette (probs : List (ℕ × ℝ)) (r : ℝ) : ℕ :=
  rouletteLoop probs (probs.headD (0, 0)).1 r

/-- Modelled from the spec (§4.2 step b): the spec-side description of
roulette selection: "pick the first candidate at which the running remainder
drops to ≤ 0"; `none` when the remainder never reaches `≤ 0`. Used only to
compare with the source's `roulette`. -/
noncomputable def firstHit : List (ℕ × ℝ) → ℝ → Option ℕ
  | [], _ => none
  | p :: rest, r => if r - p.2 ≤ 0 then some p.1 else firstHit rest (r - p.2)

/-- One selection step of an ant: build `probs`, accumulate `denom`,
draw `r = u * denom` (`u` models `Math.random()`), run the roulette. -/
noncomputable def antStep (cities : List City) (m : Pher) (alpha beta : ℝ)
    (visited : Finset ℕ) (cur : ℕ) (u : ℝ) : ℕ :=
  let probs := probsOf cities m alpha beta visited cur
  let denom := (probs.map Prod.snd).sum
  roulette probs (u * denom)

/-- The `while (visited.size < n)` construction loop, with explicit fuel.
State: visited set, partial tour (in visit order), current city, step index
into the draw stream. Fuel `0` truncates; fuel sufficiency is proved below. -/
noncomputable def antLoop (cities : List City) (m : Pher) (alpha beta : ℝ)
    (draw : ℕ → ℝ) : ℕ → Finset ℕ → List ℕ → ℕ → ℕ → List ℕ
  | 0, _, tour, _, _ => tour
  | fuel + 1, visited, tour, cur, s =>
      if visited.card < cities.length then
        let chosen := antStep cities m alpha beta visited cur (draw s)
        antLoop cities m alpha beta draw fuel (insert chosen visited)
          (tour ++ [chosen]) chosen (s + 1)
      else tour

/-- One ant's full tour: start at `start`, run the loop, close with
`tour.push(start)`. Fuel `cities.length` is enough (proved below). -/
noncomputable def antTour (cities : List City) (m : Pher) (alpha beta : ℝ)
    (start : ℕ) (draw : ℕ → ℝ) : List ℕ :=
  antLoop cities m alpha beta draw cities.length {start} [start] start 0 ++ [start]

/-- The per-iteration parameter bundle read from the sliders. -/
structure Params where
  alpha : ℝ
  beta : ℝ
  rho : ℝ
  ants : ℕ

/-- The engine's mutable state in `script.js`: globals `cities`, `pher`,
`iter`, `bestDist` (starts `Infinity`, hence `WithTop ℝ`), `bestTour`
(starts `null`, hence `Option`). -/
structure Model where
  cities : List City
  pher : Pher
  iter : ℕ
  bestDist : WithTop ℝ
  bestTour : Option (List ℕ)

/-- Body of the deposit/best loop `for (a...) { deposit edges; if (D < bestDist) ... }`:
deposit `delta = 1/(D + 1e-6)` on the tour's edges, then update the best record
on strict improvement. -/
noncomputable def depositBest (st : Pher × WithTop ℝ × Option (List ℕ))
    (td : List ℕ × ℝ) : Pher × WithTop ℝ × Option (List ℕ) :=
  let m := depositTour st.1 td.1 (1 / (td.2 + 0.000001))
  if (td.2 : WithTop ℝ) < st.2.1 then (m, (td.2 : WithTop ℝ), some td.1) else (m, st.2)

/-- The best-record part of `depositBest`, used to characterize the update. -/
noncomputable def updBest (a : WithTop ℝ × Option (List ℕ)) (td : List ℕ × ℝ) :
    WithTop ℝ × Option (List ℕ) :=
  if (td.2 : WithTop ℝ) < a.1 then ((td.2 : WithTop ℝ), some td.1) else a

/-- The `tours` array of one iteration: one tour per ant, `k = 0 .. ants-1`
(`starts k` models ant `k`'s `Math.floor(Math.random()*n)`, `draws k` that
ant's stream of roulette draws). -/
noncomputable def iterTours (mo : Model) (p : Params) (starts : ℕ → ℕ)
    (draws : ℕ → ℕ → ℝ) : List (List ℕ) :=
  (List.range p.ants).map
    (fun k => antTour mo.cities mo.pher p.alpha p.beta (starts k) (draws k))

/-- The state after evaporation followed by the per-ant deposit/best loop:
`tourD` is `tours.map(tour => length)`, evaporation happens first, then the
`for (a...)` loop folds `depositBest` over `(tours[a], tourD[a])` in ant order. -/
noncomputable def iterRes (mo : Model) (p : Params) (starts : ℕ → ℕ)
    (draws : ℕ → ℕ → ℝ) : Pher × WithTop ℝ × Option (List ℕ) :=
  ((iterTours mo p starts draws).zip
      ((iterTours mo p starts draws).map (tourLen mo.cities))).foldl
    depositBest (evaporate mo.pher p.rho, mo.bestDist, mo.bestTour)

/-- `runIteration()` from `script.js`: guard on `< 2` cities; construct one
tour per ant; evaporate; deposit and update the best per ant in construction
order; increment `iter`. -/
noncomputable def runIteration (mo : Model) (p : Params) (starts : ℕ → ℕ)
    (draws : ℕ → ℕ → ℝ) : Model :=
  if mo.cities.length < 2 then mo
  else
    { mo with pher := (iterRes mo p starts draws).1,
              bestDist := (iterRes mo p starts draws).2.1,
              bestTour := (iterRes mo p starts draws).2.2,
              iter := mo.iter + 1 }

/-- `resetModel()` from `script.js`: clears `iter`, `bestDist`, `bestTour`, `pher`. -/
def resetModel (mo : Model) : Model :=
  { mo with iter := 0, bestDist := ⊤, bestTour := none, pher := [] }

/-- The canvas click handler's "add a city" branch: `cities.push({x,y}); initPheromones()`.
Nothing else changes. -/
def onCityAdded (mo : Model) (c : City) : Model :=
  { mo with cities := mo.cities ++ [c],
            pher := initPheromones (mo.cities ++ [c]).length }

/-- The canvas click handler's "remove a city" branch:
`cities.splice(i,1); initPheromones()`. Nothing else changes. -/
def onCityRemoved (mo : Model) (i : ℕ) : Model :=
  { mo with cities := mo.cities.eraseIdx i,
            pher := initPheromones (mo.cities.eraseIdx i).length }

/-- An abstract pheromone-store operation, for the store-invariant claim:
evaporation by `rho`, or adding `amount` to the level of each listed edge
(the two store mutations `runIteration` performs). -/
inductive StoreOp where
  | evap (rho : ℝ)
  | dep (edges : List (ℕ × ℕ)) (amount : ℝ)

/-- Apply one store operation, exactly as the corresponding `script.js` loop does. -/
noncomputable def applyOp (m : Pher) : StoreOp → Pher
  | .evap rho => evaporate m rho
  | .dep edges amount =>
      edges.foldl
        (fun mm e =>
          objSet mm (edgeKey e.1 e.2) ((objGet mm (edgeKey e.1 e.2)).getD 0 + amount)) m

/-- Validity of an operation's parameters per the spec's parameter contract:
`rho ∈ [0,1]`, deposit amounts non-negative. -/
def ValidOp : StoreOp → Prop
  | .evap rho => 0 ≤ rho ∧ rho ≤ 1
  | .dep _ amount => 0 ≤ amount

/-- All stored levels non-negative. -/
def NonnegStore (m : Pher) : Prop := ∀ p ∈ m, 0 ≤ p.2

/-- Modelled from the spec (§6, §8): clamping to `[0,1]`, which the spec says
`evaporate` applies to `rho`; used only to compare with the source, which
uses `rho` unclamped. -/
noncomputable def clamp01 (rho : ℝ) : ℝ := max 0 (min 1 rho)

/-! Concrete sample data used by witnesses and counterexamples. -/

/-- A concrete two-city model with one pheromone entry, iteration 0, empty best. -/
noncomputable def sampleModel : Model :=
  { cities := [⟨0, 0⟩, ⟨3, 4⟩], pher := [("0-1", 1)], iter := 0,
    bestDist := ⊤, bestTour := none }

/-- A concrete model with a non-empty best record. -/
noncomputable def sampleModelBest : Model :=
  { cities := [⟨0, 0⟩, ⟨3, 4⟩], pher := [("0-1", 1)], iter := 7,
    bestDist := (5 : ℝ), bestTour := some [0, 1, 0] }

/-- A concrete one-city model (insufficient cities). -/
noncomputable def sampleModelOne : Model :=
  { cities := [⟨0, 0⟩], pher := [], iter := 3,
    bestDist := (9 : ℝ), bestTour := some [0] }

/-- Parameters with `ants = 0` and `rho = 1/2`. -/
noncomputable def sampleParamsZeroAnts : Params :=
  { alpha := 1, beta := 1, rho := 1/2, ants := 0 }

/-- Fold JS assignments over a key-value list (used to restate `initPheromones`). -/
def assignAll (m : Pher) (kvs : List (String × ℝ)) : Pher :=
  kvs.foldl (fun mm kv => objSet mm kv.1 kv.2) m

/-- The `(i, j)` pairs (with `i < j < n`) enumerated by the nested
`initPheromones` loops, in loop order. -/
def pairList (n : ℕ) : List (ℕ × ℕ) :=
  (List.range n).flatMap (fun i => (List.range' (i + 1) (n - (i + 1))).map (fun j => (i, j)))

/-!  ## Decimal string representation: `Nat.repr` facts for `edgeKey`  -/

theorem toDigitsCore_append (f n : ℕ) (ds : List Char) :
    Nat.toDigitsCore 10 f n ds = Nat.toDigitsCore 10 f n [] ++ ds := by
  induction f generalizing n ds with
  | zero => simp [Nat.toDigitsCore]
  | succ f ih =>
    simp only [Nat.toDigitsCore]
    by_cases h : n / 10 = 0
    · simp [h]
    · simp only [h, if_neg h]
      rw [ih (n / 10) (Nat.digitChar (n % 10) :: ds), ih (n / 10) [Nat.digitChar (n % 10)]]
      simp

theorem toDigitsCore_fuel (n : ℕ) : ∀ f₁ f₂ : ℕ, n < f₁ → n < f₂ →
    Nat.toDigitsCore 10 f₁ n [] = Nat.toDigitsCore 10 f₂ n [] := by
  induction n using Nat.strong_induction_on with
  | _ n ih =>
    intro f₁ f₂ h₁ h₂
    match f₁, f₂ with
    | g₁ + 1, g₂ + 1 =>
      simp only [Nat.toDigitsCore]
      by_cases h : n / 10 = 0
      · simp [h]
      · simp only [h, if_neg h]
        rw [toDigitsCore_append g₁, toDigitsCore_append g₂]
        have hdiv : n / 10 < n := Nat.div_lt_self (Nat.pos_of_ne_zero (by omega)) (by omega)
        rw [ih (n / 10) hdiv g₁ g₂ (by omega) (by omega)]

theorem toDigits_of_lt (n : ℕ) (h : n < 10) : Nat.toDigits 10 n = [Nat.digitChar n] := by
  have h0 : n / 10 = 0 := Nat.div_eq_of_lt h
  have h1 : n % 10 = n := Nat.mod_eq_of_lt h
  simp [Nat.toDigits, Nat.toDigitsCore, h0, h1]

theorem toDigits_of_ge (n : ℕ) (h : 10 ≤ n) :
    Nat.toDigits 10 n = Nat.toDigits 10 (n / 10) ++ [Nat.digitChar (n % 10)] := by
  have h0 : n / 10 ≠ 0 := by omega
  show Nat.toDigitsCore 10 (n + 1) n [] = _
  simp only [Nat.toDigitsCore, h0, if_neg h0]
  rw [toDigitsCore_append n]
  have hdiv : n / 10 < n := Nat.div_lt_self (by omega) (by omega)
  rw [toDigitsCore_fuel (n / 10) n (n / 10 + 1) (by omega) (by omega)]
  rfl

theorem toDigits_ne_nil (n : ℕ) : Nat.toDigits 10 n ≠ [] := by
  rcases lt_or_ge n 10 with h | h
  · simp [toDigits_of_lt n h]
  · simp [toDigits_of_ge n h]

theorem digitChar_lt_ten_ne_dash : ∀ m : ℕ, m < 10 → Nat.digitChar m ≠ Char.ofNat 45 := by
  decide

theorem digitChar_lt_ten_inj :
    ∀ a : ℕ, a < 10 → ∀ b : ℕ, b < 10 → Nat.digitChar a = Nat.digitChar b → a = b := by
  decide

theorem toDigits_no_dash (n : ℕ) : ∀ c ∈ Nat.toDigits 10 n, c ≠ Char.ofNat 45 := by
  induction n using Nat.strong_induction_on with
  | _ n ih =>
    rcases lt_or_ge n 10 with h | h
    · rw [toDigits_of_lt n h]
      intro c hc
      rw [List.mem_singleton] at hc
      exact hc ▸ digitChar_lt_ten_ne_dash n h
    · rw [toDigits_of_ge n h]
      intro c hc
      rcases List.mem_append.mp hc with hl | hr
      · exact ih (n / 10) (Nat.div_lt_self (by omega) (by omega)) c hl
      · rw [List.mem_singleton] at hr
        exact hr ▸ digitChar_lt_ten_ne_dash (n % 10) (Nat.mod_lt n (by omega))

theorem toDigits_inj : ∀ a : ℕ, ∀ b : ℕ,
    Nat.toDigits 10 a = Nat.toDigits 10 b → a = b := by
  intro a
  induction a using Nat.strong_induction_on with
  | _ a ih =>
    intro b h
    rcases lt_or_ge a 10 with ha | ha <;> rcases lt_or_ge b 10 with hb | hb
    · rw [toDigits_of_lt a ha, toDigits_of_lt b hb] at h
      exact digitChar_lt_ten_inj a ha b hb (List.singleton_inj.mp h)
    · rw [toDigits_of_lt a ha, toDigits_of_ge b hb] at h
      have hl1 : Nat.toDigits 10 (b / 10) = [] := by
        have hlen := congrArg List.length h
        simp only [List.length_append, List.length_singleton] at hlen
        exact List.length_eq_zero.mp (by omega)
      exact absurd hl1 (toDigits_ne_nil (b / 10))
    · rw [toDigits_of_ge a ha, toDigits_of_lt b hb] at h
      have hl1 : Nat.toDigits 10 (a / 10) = [] := by
        have hlen := congrArg List.length h
        simp only [List.length_append, List.length_singleton] at hlen
        exact List.length_eq_zero.mp (by omega)
      exact absurd hl1 (toDigits_ne_nil (a / 10))
    · rw [toDigits_of_ge a ha, toDigits_of_ge b hb] at h
      have hlen : [Nat.digitChar (a % 10)].length = [Nat.digitChar (b % 10)].length := by simp
      obtain ⟨h1, h2⟩ := List.append_inj' h hlen
      have hmod : a % 10 = b % 10 :=
        digitChar_lt_ten_inj (a % 10) (Nat.mod_lt a (by omega)) (b % 10)
          (Nat.mod_lt b (by omega)) (List.singleton_inj.mp h2)
      have hdivlt : a / 10 < a := Nat.div_lt_self (by omega) (by omega)
      have hdiv : a / 10 = b / 10 := ih (a / 10) hdivlt (b / 10) h1
      omega

theorem repr_inj {a b : ℕ} (h : Nat.repr a = Nat.repr b) : a = b :=
  toDigits_inj a b (List.asString_inj.mp h)

theorem repr_no_dash (n : ℕ) : ∀ c ∈ (Nat.repr n).data, c ≠ Char.ofNat 45 :=
  toDigits_no_dash n

theorem append_sep_inj {xs ys xs₁ ys₁ : List Char}
    (hx : ∀ c ∈ xs, c ≠ Char.ofNat 45) (hx₁ : ∀ c ∈ xs₁, c ≠ Char.ofNat 45)
    (h : xs ++ Char.ofNat 45 :: ys = xs₁ ++ Char.ofNat 45 :: ys₁) :
    xs = xs₁ ∧ ys = ys₁ := by
  induction xs generalizing xs₁ with
  | nil =>
    cases xs₁ with
    | nil => simpa using h
    | cons a t =>
      rw [List.nil_append, List.cons_append, List.cons_eq_cons] at h
      exact absurd h.1.symm (hx₁ a (List.mem_cons_self a t))
  | cons a t ih =>
    cases xs₁ with
    | nil =>
      rw [List.nil_append, List.cons_append, List.cons_eq_cons] at h
      exact absurd h.1 (hx a (List.mem_cons_self a t))
    | cons a₁ t₁ =>
      rw [List.cons_append, List.cons_append, List.cons_eq_cons] at h
      obtain ⟨rfl, hrest⟩ := h
      have := ih (fun c hc => hx c (List.mem_cons_of_mem a hc))
        (fun c hc => hx₁ c (List.mem_cons_of_mem a hc)) hrest
      exact ⟨by rw [this.1], this.2⟩

theorem edgeKey_data (a b : ℕ) (h : a < b) :
    (edgeKey a b).data = (Nat.repr a).data ++ Char.ofNat 45 :: (Nat.repr b).data := by
  rw [edgeKey, if_pos h]
  have : ("-" : String).data = [Char.ofNat 45] := by decide
  simp [String.data_append, this]

theorem edgeKey_inj {a b a₁ b₁ : ℕ} (hab : a < b) (hab₁ : a₁ < b₁)
    (h : edgeKey a b = edgeKey a₁ b₁) : a = a₁ ∧ b = b₁ := by
  have hd : (edgeKey a b).data = (edgeKey a₁ b₁).data := by rw [h]
  rw [edgeKey_data a b hab, edgeKey_data a₁ b₁ hab₁] at hd
  obtain ⟨h1, h2⟩ := append_sep_inj (repr_no_dash a) (repr_no_dash a₁) hd
  exact ⟨repr_inj (String.toList_inj.mp h1), repr_inj (String.toList_inj.mp h2)⟩

theorem edgeKey_comm (a b : ℕ) : edgeKey a b = edgeKey b a := by
  unfold edgeKey
  rcases lt_trichotomy a b with h | h | h
  · rw [if_pos h, if_neg (by omega)]
  · subst h; rfl
  · rw [if_neg (by omega), if_pos h]

/-!  ## Pheromone store: keys, initialization, counting  -/

theorem objSet_fresh (m : Pher) (k : String) (v : ℝ) (h : k ∉ m.map Prod.fst) :
    objSet m k v = m ++ [(k, v)] := by
  induction m with
  | nil => rfl
  | cons p rest ih =>
    simp only [List.map_cons, List.mem_cons, not_or] at h
    rw [objSet, if_neg (fun he => h.1 he.symm), ih h.2]
    rfl

theorem assignAll_cons (m : Pher) (kv : String × ℝ) (rest : List (String × ℝ)) :
    assignAll m (kv :: rest) = assignAll (objSet m kv.1 kv.2) rest := rfl

theorem assignAll_fresh (m : Pher) (kvs : List (String × ℝ))
    (hnd : (kvs.map Prod.fst).Nodup)
    (hfr : ∀ k ∈ kvs.map Prod.fst, k ∉ m.map Prod.fst) :
    assignAll m kvs = m ++ kvs := by
  induction kvs generalizing m with
  | nil => simp [assignAll]
  | cons kv rest ih =>
    rw [List.map_cons, List.nodup_cons] at hnd
    rw [assignAll_cons,
        objSet_fresh m kv.1 kv.2 (hfr kv.1 (by simp)),
        ih (m ++ [(kv.1, kv.2)])]
    · simp
    · exact hnd.2
    · intro k hk
      simp only [List.map_append, List.mem_append, not_or]
      refine ⟨hfr k (List.mem_cons_of_mem _ hk), ?_⟩
      simp only [List.map_cons, List.mem_singleton, List.map_nil]
      intro he
      exact hnd.1 (he ▸ hk)

theorem foldl_flatMap {α β γ : Type} (l : List α) (g : α → List β) (f : γ → β → γ)
    (init : γ) :
    (l.flatMap g).foldl f init = l.foldl (fun acc a => (g a).foldl f acc) init := by
  induction l generalizing init with
  | nil => rfl
  | cons a t ih => simp [List.flatMap_cons, List.foldl_append, ih]

theorem initPheromones_eq (n : ℕ) :
    initPheromones n
      = assignAll [] ((pairList n).map (fun ij => (edgeKey ij.1 ij.2, 1))) := by
  rw [initPheromones, pairList, assignAll, List.map_flatMap, foldl_flatMap]
  simp only [List.foldl_map]

theorem pairList_mem {n : ℕ} {ij : ℕ × ℕ} (h : ij ∈ pairList n) :
    ij.1 < ij.2 ∧ ij.2 < n := by
  rw [pairList, List.mem_flatMap] at h
  obtain ⟨i, hi, hj⟩ := h
  rw [List.mem_map] at hj
  obtain ⟨j, hj, rfl⟩ := hj
  rw [List.mem_range'] at hj
  rw [List.mem_range] at hi
  obtain ⟨k, hk, rfl⟩ := hj
  exact ⟨by omega, by omega⟩

theorem pairList_nodup (n : ℕ) : (pairList n).Nodup := by
  rw [pairList]
  refine List.nodup_flatMap.mpr ⟨fun i _ => ?_, ?_⟩
  · exact (List.nodup_range' (i + 1) (n - (i + 1))).map_on
      (fun a _ b _ h => congrArg Prod.snd h)
  · refine (List.pairwise_lt_range n).imp ?_
    intro i i' hlt p hp hp'
    simp only [List.mem_map] at hp hp'
    obtain ⟨j, _, rfl⟩ := hp
    obtain ⟨j', _, h2⟩ := hp'
    have : i' = i := congrArg Prod.fst h2
    omega

theorem pairList_length (n : ℕ) : (pairList n).length = n * (n - 1) / 2 := by
  have hsum : ∀ k : ℕ, ∀ f : ℕ → ℕ,
      ((List.range k).map f).sum = ∑ i ∈ Finset.range k, f i := by
    intro k f
    induction k with
    | zero => simp
    | succ k ih =>
      rw [List.range_succ, List.map_append, List.sum_append, Finset.sum_range_succ, ih]
      simp
  rw [pairList, List.length_flatMap]
  have : (List.map (List.length ∘ fun i =>
      (List.range' (i + 1) (n - (i + 1))).map (fun j => (i, j))) (List.range n))
      = (List.range n).map (fun i => n - (i + 1)) := by
    apply List.map_congr_left
    intro i _
    simp
  rw [this, hsum]
  have hrefl := Finset.sum_range_reflect (fun j => j) n
  have hcongr : (∑ i ∈ Finset.range n, (n - (i + 1)))
      = ∑ i ∈ Finset.range n, (n - 1 - i) := by
    apply Finset.sum_congr rfl
    intro i hi
    rw [Finset.mem_range] at hi
    omega
  rw [hcongr, hrefl, Finset.sum_range_id]

theorem initPheromones_list (n : ℕ) :
    initPheromones n = (pairList n).map (fun ij => (edgeKey ij.1 ij.2, 1)) := by
  rw [initPheromones_eq]
  have hkeys : (((pairList n).map (fun ij => (edgeKey ij.1 ij.2, (1 : ℝ)))).map
      Prod.fst).Nodup := by
    rw [List.map_map]
    refine (pairList_nodup n).map_on ?_
    intro x hx y hy h
    have hxm := pairList_mem hx
    have hym := pairList_mem hy
    have := edgeKey_inj hxm.1 hym.1 h
    exact Prod.ext this.1 this.2
  rw [assignAll_fresh [] _ hkeys (by simp)]
  rfl

theorem initPheromones_values (n : ℕ) : ∀ p ∈ initPheromones n, p.2 = 1 := by
  intro p hp
  rw [initPheromones_list, List.mem_map] at hp
  obtain ⟨ij, _, rfl⟩ := hp
  rfl

theorem initPheromones_length (n : ℕ) :
    (initPheromones n).length = n * (n - 1) / 2 := by
  rw [initPheromones_list, List.length_map, pairList_length]

theorem initPheromones_keys_nodup (n : ℕ) :
    ((initPheromones n).map Prod.fst).Nodup := by
  rw [initPheromones_list, List.map_map]
  refine (pairList_nodup n).map_on ?_
  intro x hx y hy h
  have hxm := pairList_mem hx
  have hym := pairList_mem hy
  have := edgeKey_inj hxm.1 hym.1 h
  exact Prod.ext this.1 this.2

/-!  ## Roulette selection  -/

theorem rouletteLoop_mem (l : List (ℕ × ℝ)) (c : ℕ) (r : ℝ) :
    rouletteLoop l c r = c ∨ rouletteLoop l c r ∈ l.map Prod.fst := by
  induction l generalizing r with
  | nil => exact Or.inl rfl
  | cons p rest ih =>
    rw [rouletteLoop]
    by_cases h : r - p.2 ≤ 0
    · rw [if_pos h]
      exact Or.inr (by simp)
    · rw [if_neg h]
      rcases ih (r - p.2) with h1 | h1
      · exact Or.inl h1
      · exact Or.inr (by simp [h1])

theorem roulette_mem (probs : List (ℕ × ℝ)) (r : ℝ) (h : probs ≠ []) :
    roulette probs r ∈ probs.map Prod.fst := by
  match probs with
  | p :: rest =>
    rw [roulette]
    rcases rouletteLoop_mem (p :: rest) (((p :: rest).headD (0, 0)).1) r with h1 | h1
    · rw [h1]; simp
    · exact h1

theorem firstHit_isSome (probs : List (ℕ × ℝ)) (r : ℝ) (hne : probs ≠ [])
    (h : r < (probs.map Prod.snd).sum) : (firstHit probs r).isSome := by
  induction probs generalizing r with
  | nil => exact absurd rfl hne
  | cons p rest ih =>
    rw [firstHit]
    by_cases hc : r - p.2 ≤ 0
    · rw [if_pos hc]; rfl
    · rw [if_neg hc]
      simp only [List.map_cons, List.sum_cons] at h
      cases rest with
      | nil =>
        exact absurd (by simpa using h) (by push_neg at hc; intro hx; linarith)
      | cons q t =>
        exact ih (r - p.2) (by simp) (by linarith)

theorem roulette_eq_firstHit (probs : List (ℕ × ℝ)) (r : ℝ) :
    roulette probs r = (firstHit probs r).getD (probs.headD (0, 0)).1 := by
  rw [roulette]
  generalize (probs.headD (0, 0)).1 = c
  induction probs generalizing r with
  | nil => rfl
  | cons p rest ih =>
    rw [rouletteLoop, firstHit]
    by_cases h : r - p.2 ≤ 0
    · rw [if_pos h, if_pos h]; rfl
    · rw [if_neg h, if_neg h, ih]

/-!  ## Candidate desirability  -/

theorem distance_nonneg (a b : City) : 0 ≤ distance a b := Real.sqrt_nonneg _

theorem candVal_pos (cities : List City) (m : Pher) (alpha beta : ℝ) (cur j : ℕ) :
    0 < candVal cities m alpha beta cur j := by
  rw [candVal]
  apply mul_pos
  · apply Real.rpow_pos_of_pos
    exact lt_of_lt_of_le (by norm_num) (le_max_right _ _)
  · apply Real.rpow_pos_of_pos
    apply div_pos one_pos
    have := distance_nonneg (cities.getD cur ⟨0, 0⟩) (cities.getD j ⟨0, 0⟩)
    linarith

theorem probsOf_map_fst (cities : List City) (m : Pher) (alpha beta : ℝ)
    (visited : Finset ℕ) (cur : ℕ) :
    (probsOf cities m alpha beta visited cur).map Prod.fst
      = (List.range cities.length).filter (fun j => decide (j ∉ visited)) := by
  rw [probsOf, List.map_map]
  have hcomp : (Prod.fst ∘ fun j => (j, candVal cities m alpha beta cur j))
      = fun j : ℕ => j := rfl
  rw [hcomp, List.map_id']

theorem probsOf_ne_nil (cities : List City) (m : Pher) (alpha beta : ℝ)
    (visited : Finset ℕ) (cur : ℕ)
    (hsub : visited ⊆ Finset.range cities.length)
    (hcard : visited.card < cities.length) :
    probsOf cities m alpha beta visited cur ≠ [] := by
  have hne : visited ≠ Finset.range cities.length := by
    intro he
    rw [he, Finset.card_range] at hcard
    omega
  obtain ⟨j, hj, hnot⟩ := Finset.exists_of_ssubset (ssubset_iff_subset_ne.mpr ⟨hsub, hne⟩)
  intro hnil
  have hm := probsOf_map_fst cities m alpha beta visited cur
  rw [hnil] at hm
  have : j ∈ (List.range cities.length).filter (fun j => decide (j ∉ visited)) := by
    rw [List.mem_filter]
    exact ⟨List.mem_range.mpr (Finset.mem_range.mp hj), by simpa using hnot⟩
  rw [← hm] at this
  simp at this

theorem probsOf_snd_pos (cities : List City) (m : Pher) (alpha beta : ℝ)
    (visited : Finset ℕ) (cur : ℕ) :
    ∀ p ∈ probsOf cities m alpha beta visited cur, 0 < p.2 := by
  intro p hp
  rw [probsOf, List.mem_map] at hp
  obtain ⟨j, _, rfl⟩ := hp
  exact candVal_pos cities m alpha beta cur j

theorem antStep_unvisited (cities : List City) (m : Pher) (alpha beta : ℝ)
    (visited : Finset ℕ) (cur : ℕ) (u : ℝ)
    (hsub : visited ⊆ Finset.range cities.length)
    (hcard : visited.card < cities.length) :
    antStep cities m alpha beta visited cur u < cities.length ∧
      antStep cities m alpha beta visited cur u ∉ visited := by
  have hne := probsOf_ne_nil cities m alpha beta visited cur hsub hcard
  have hmem := roulette_mem (probsOf cities m alpha beta visited cur)
    (u * ((probsOf cities m alpha beta visited cur).map Prod.snd).sum) hne
  rw [probsOf_map_fst, List.mem_filter] at hmem
  have hstep : antStep cities m alpha beta visited cur u
      = roulette (probsOf cities m alpha beta visited cur)
        (u * ((probsOf cities m alpha beta visited cur).map Prod.snd).sum) := rfl
  rw [hstep]
  exact ⟨List.mem_range.mp hmem.1, by simpa using hmem.2⟩

/-!  ## The construction loop: invariants, fuel, tour shape  -/

theorem toFinset_concat (tour : List ℕ) (c : ℕ) :
    (tour ++ [c]).toFinset = insert c tour.toFinset := by
  ext x
  simp [or_comm]

theorem antLoop_spec (cities : List City) (m : Pher) (alpha beta : ℝ) (draw : ℕ → ℝ) :
    ∀ (fuel : ℕ) (visited : Finset ℕ) (tour : List ℕ) (cur s : ℕ),
      cities.length ≤ fuel + visited.card →
      visited ⊆ Finset.range cities.length →
      tour.toFinset = visited →
      tour.Nodup →
      (antLoop cities m alpha beta draw fuel visited tour cur s).toFinset
          = Finset.range cities.length ∧
        (antLoop cities m alpha beta draw fuel visited tour cur s).Nodup ∧
        (antLoop cities m alpha beta draw fuel visited tour cur s).length
          = cities.length ∧
        tour <+: antLoop cities m alpha beta draw fuel visited tour cur s := by
  intro fuel
  induction fuel with
  | zero =>
    intro visited tour cur s hfuel hsub htf hnd
    have hcard : visited.card ≤ cities.length := by
      have := Finset.card_le_card hsub
      simpa using this
    have hv : visited = Finset.range cities.length := by
      apply Finset.eq_of_subset_of_card_le hsub
      simp
      omega
    rw [antLoop]
    refine ⟨htf.trans hv, hnd, ?_, List.prefix_refl tour⟩
    rw [← List.toFinset_card_of_nodup hnd, htf, hv, Finset.card_range]
  | succ fuel ih =>
    intro visited tour cur s hfuel hsub htf hnd
    rw [antLoop]
    by_cases hlt : visited.card < cities.length
    · rw [if_pos hlt]
      obtain ⟨hcn, hcv⟩ :=
        antStep_unvisited cities m alpha beta visited cur (draw s) hsub hlt
      set chosen := antStep cities m alpha beta visited cur (draw s) with hch
      have hnotin : chosen ∉ tour := fun hmem =>
        hcv (htf ▸ List.mem_toFinset.mpr hmem)
      have h1 : cities.length ≤ fuel + (insert chosen visited).card := by
        rw [Finset.card_insert_of_not_mem hcv]
        omega
      have h2 : insert chosen visited ⊆ Finset.range cities.length := by
        intro x hx
        rcases Finset.mem_insert.mp hx with rfl | hx
        · exact Finset.mem_range.mpr hcn
        · exact hsub hx
      have h3 : (tour ++ [chosen]).toFinset = insert chosen visited := by
        rw [toFinset_concat, htf]
      have h4 : (tour ++ [chosen]).Nodup := by
        rw [List.nodup_append]
        exact ⟨hnd, List.nodup_singleton chosen, by simpa using hnotin⟩
      obtain ⟨r1, r2, r3, r4⟩ :=
        ih (insert chosen visited) (tour ++ [chosen]) chosen (s + 1) h1 h2 h3 h4
      exact ⟨r1, r2, r3, (List.prefix_append tour [chosen]).trans r4⟩
    · rw [if_neg hlt]
      have hv : visited = Finset.range cities.length := by
        apply Finset.eq_of_subset_of_card_le hsub
        simp
        omega
      refine ⟨htf.trans hv, hnd, ?_, List.prefix_refl tour⟩
      rw [← List.toFinset_card_of_nodup hnd, htf, hv, Finset.card_range]

theorem antLoop_fuel_irrel (cities : List City) (m : Pher) (alpha beta : ℝ)
    (draw : ℕ → ℝ) :
    ∀ (fuel₁ fuel₂ : ℕ) (visited : Finset ℕ) (tour : List ℕ) (cur s : ℕ),
      visited ⊆ Finset.range cities.length →
      cities.length ≤ fuel₁ + visited.card →
      cities.length ≤ fuel₂ + visited.card →
      antLoop cities m alpha beta draw fuel₁ visited tour cur s
        = antLoop cities m alpha beta draw fuel₂ visited tour cur s := by
  intro fuel₁
  induction fuel₁ with
  | zero =>
    intro fuel₂ visited tour cur s hsub h₁ h₂
    cases fuel₂ with
    | zero => rfl
    | succ g =>
      rw [antLoop, antLoop, if_neg (by omega)]
  | succ f ih =>
    intro fuel₂ visited tour cur s hsub h₁ h₂
    cases fuel₂ with
    | zero =>
      rw [antLoop, antLoop, if_neg (by omega)]
    | succ g =>
      rw [antLoop, antLoop]
      by_cases hlt : visited.card < cities.length
      · rw [if_pos hlt, if_pos hlt]
        obtain ⟨hcn, hcv⟩ :=
          antStep_unvisited cities m alpha beta visited cur (draw s) hsub hlt
        set chosen := antStep cities m alpha beta visited cur (draw s) with hch
        have h2 : insert chosen visited ⊆ Finset.range cities.length := by
          intro x hx
          rcases Finset.mem_insert.mp hx with rfl | hx
          · exact Finset.mem_range.mpr hcn
          · exact hsub hx
        apply ih g (insert chosen visited) (tour ++ [chosen]) chosen (s + 1) h2 <;>
          rw [Finset.card_insert_of_not_mem hcv] <;> omega
      · rw [if_neg hlt, if_neg hlt]

theorem antLoop_length_low_fuel (cities : List City) (m : Pher) (alpha beta : ℝ)
    (draw : ℕ → ℝ) :
    ∀ (fuel : ℕ) (visited : Finset ℕ) (tour : List ℕ) (cur s : ℕ),
      visited ⊆ Finset.range cities.length →
      tour.toFinset = visited →
      tour.Nodup →
      fuel + visited.card ≤ cities.length →
      (antLoop cities m alpha beta draw fuel visited tour cur s).length
        = tour.length + fuel := by
  intro fuel
  induction fuel with
  | zero =>
    intro visited tour cur s hsub htf hnd hfuel
    rw [antLoop]
    omega
  | succ f ih =>
    intro visited tour cur s hsub htf hnd hfuel
    rw [antLoop, if_pos (by omega)]
    obtain ⟨hcn, hcv⟩ :=
      antStep_unvisited cities m alpha beta visited cur (draw s) hsub (by omega)
    set chosen := antStep cities m alpha beta visited cur (draw s) with hch
    have hnotin : chosen ∉ tour := fun hmem => hcv (htf ▸ List.mem_toFinset.mpr hmem)
    have h2 : insert chosen visited ⊆ Finset.range cities.length := by
      intro x hx
      rcases Finset.mem_insert.mp hx with rfl | hx
      · exact Finset.mem_range.mpr hcn
      · exact hsub hx
    have h3 : (tour ++ [chosen]).toFinset = insert chosen visited := by
      rw [toFinset_concat, htf]
    have h4 : (tour ++ [chosen]).Nodup := by
      rw [List.nodup_append]
      exact ⟨hnd, List.nodup_singleton chosen, by simpa using hnotin⟩
    rw [ih (insert chosen visited) (tour ++ [chosen]) chosen (s + 1) h2 h3 h4
      (by rw [Finset.card_insert_of_not_mem hcv]; omega)]
    simp
    omega

/-!  ## Deposit loop and best-record update  -/

theorem depositBest_eq (st : Pher × WithTop ℝ × Option (List ℕ)) (td : List ℕ × ℝ) :
    depositBest st td
      = (depositTour st.1 td.1 (1 / (td.2 + 0.000001)), updBest st.2 td) := by
  simp only [depositBest, updBest]
  by_cases h : (td.2 : WithTop ℝ) < st.2.1
  · rw [if_pos h, if_pos h]
  · rw [if_neg h, if_neg h]

theorem depositBest_snd (l : List (List ℕ × ℝ)) :
    ∀ (ph : Pher) (b : WithTop ℝ) (bt : Option (List ℕ)),
      (l.foldl depositBest (ph, b, bt)).2 = l.foldl updBest (b, bt) := by
  induction l with
  | nil => intro ph b bt; rfl
  | cons td rest ih =>
    intro ph b bt
    rw [List.foldl_cons, List.foldl_cons, depositBest_eq]
    exact ih _ _ _

theorem updBest_fold_fst_le (l : List (List ℕ × ℝ)) :
    ∀ a : WithTop ℝ × Option (List ℕ), (l.foldl updBest a).1 ≤ a.1 := by
  induction l with
  | nil => intro a; exact le_refl _
  | cons td rest ih =>
    intro a
    rw [List.foldl_cons]
    by_cases h : (td.2 : WithTop ℝ) < a.1
    · rw [show updBest a td = ((td.2 : WithTop ℝ), some td.1) from by
        simp only [updBest]; rw [if_pos h]]
      exact le_trans (ih _) (le_of_lt h)
    · rw [show updBest a td = a from by simp only [updBest]; rw [if_neg h]]
      exact ih a

theorem updBest_fold_no_improve (l : List (List ℕ × ℝ)) :
    ∀ a : WithTop ℝ × Option (List ℕ),
      (∀ td ∈ l, ¬((td.2 : WithTop ℝ) < a.1)) → l.foldl updBest a = a := by
  induction l with
  | nil => intro a _; rfl
  | cons td rest ih =>
    intro a h
    rw [List.foldl_cons,
        show updBest a td = a from by
          simp only [updBest]; rw [if_neg (h td (List.mem_cons_self td rest))]]
    exact ih a (fun td₁ h₁ => h td₁ (List.mem_cons_of_mem _ h₁))

theorem updBest_fold_improve (l : List (List ℕ × ℝ)) :
    ∀ (b : WithTop ℝ) (bt : Option (List ℕ)),
      (∃ td ∈ l, (td.2 : WithTop ℝ) < b) →
      ∃ pre td post, l = pre ++ td :: post ∧
        l.foldl updBest (b, bt) = ((td.2 : WithTop ℝ), some td.1) ∧
        (td.2 : WithTop ℝ) < b ∧
        (∀ td₁ ∈ pre, (td.2 : WithTop ℝ) < (td₁.2 : WithTop ℝ)) ∧
        (∀ td₁ ∈ post, (td.2 : WithTop ℝ) ≤ (td₁.2 : WithTop ℝ)) := by
  induction l with
  | nil => intro b bt h; simp at h
  | cons hd rest ih =>
    intro b bt h
    rw [List.foldl_cons]
    by_cases hhd : (hd.2 : WithTop ℝ) < b
    · rw [show updBest (b, bt) hd = ((hd.2 : WithTop ℝ), some hd.1) from by
        simp only [updBest]; rw [if_pos hhd]]
      by_cases hrest : ∃ td ∈ rest, (td.2 : WithTop ℝ) < (hd.2 : WithTop ℝ)
      · obtain ⟨pre, td, post, heq, hfold, hlt, hpre, hpost⟩ :=
          ih (hd.2 : WithTop ℝ) (some hd.1) hrest
        refine ⟨hd :: pre, td, post, by rw [heq, List.cons_append], hfold, lt_trans hlt hhd, ?_, hpost⟩
        intro td₁ h₁
        rcases List.mem_cons.mp h₁ with rfl | h₁
        · exact hlt
        · exact hpre td₁ h₁
      · push_neg at hrest
        rw [updBest_fold_no_improve rest ((hd.2 : WithTop ℝ), some hd.1)
          (fun td h₁ => not_lt.mpr (hrest td h₁))]
        exact ⟨[], hd, rest, rfl, rfl, hhd, by simp, fun td₁ h₁ => hrest td₁ h₁⟩
    · rw [show updBest (b, bt) hd = (b, bt) from by simp only [updBest]; rw [if_neg hhd]]
      have hrest : ∃ td ∈ rest, (td.2 : WithTop ℝ) < b := by
        obtain ⟨td, htd, hlt⟩ := h
        rcases List.mem_cons.mp htd with rfl | htd
        · exact absurd hlt hhd
        · exact ⟨td, htd, hlt⟩
      obtain ⟨pre, td, post, heq, hfold, hlt, hpre, hpost⟩ := ih b bt hrest
      refine ⟨hd :: pre, td, post, by rw [heq, List.cons_append], hfold, hlt, ?_, hpost⟩
      intro td₁ h₁
      rcases List.mem_cons.mp h₁ with rfl | h₁
      · exact lt_of_lt_of_le hlt (not_lt.mp hhd)
      · exact hpre td₁ h₁

/-!  ## Evaporation as a map; non-negativity  -/

theorem evaporate_eq_map (m : Pher) (rho : ℝ) :
    evaporate m rho = m.map (fun p => (p.1, p.2 * (1 - rho))) := by
  induction m with
  | nil => rfl
  | cons p rest ih => rw [evaporate, List.map_cons, ih]

theorem evaporate_rho_zero (m : Pher) : evaporate m 0 = m := by
  rw [evaporate_eq_map]
  have : (fun p : String × ℝ => (p.1, p.2 * (1 - (0 : ℝ)))) = fun p => p := by
    funext p
    simp
  rw [this, List.map_id']

theorem evaporate_rho_one (m : Pher) : ∀ p ∈ evaporate m 1, p.2 = 0 := by
  intro p hp
  rw [evaporate_eq_map, List.mem_map] at hp
  obtain ⟨q, _, rfl⟩ := hp
  simp

theorem evaporate_nonneg {m : Pher} {rho : ℝ} (hm : NonnegStore m) (h1 : rho ≤ 1) :
    NonnegStore (evaporate m rho) := by
  intro p hp
  rw [evaporate_eq_map, List.mem_map] at hp
  obtain ⟨q, hq, rfl⟩ := hp
  exact mul_nonneg (hm q hq) (by linarith)

theorem objSet_nonneg {m : Pher} {k : String} {v : ℝ}
    (hm : NonnegStore m) (hv : 0 ≤ v) : NonnegStore (objSet m k v) := by
  induction m with
  | nil =>
    intro p hp
    rw [objSet, List.mem_singleton] at hp
    exact hp ▸ hv
  | cons q rest ih =>
    intro p hp
    rw [objSet] at hp
    by_cases hk : q.1 = k
    · rw [if_pos hk] at hp
      rcases List.mem_cons.mp hp with rfl | hp
      · exact hv
      · exact hm p (List.mem_cons_of_mem _ hp)
    · rw [if_neg hk] at hp
      rcases List.mem_cons.mp hp with rfl | hp
      · exact hm p (List.mem_cons_self _ _)
      · exact ih (fun r hr => hm r (List.mem_cons_of_mem _ hr)) p hp

theorem objGet_getD_nonneg {m : Pher} (k : String) (hm : NonnegStore m) :
    0 ≤ (objGet m k).getD 0 := by
  rw [objGet]
  cases hf : m.find? (fun p => p.1 == k) with
  | none => simp
  | some p => simpa using hm p (List.mem_of_find?_eq_some hf)

theorem depositTour_nonneg : ∀ (tour : List ℕ) (m : Pher) (delta : ℝ),
    NonnegStore m → 0 ≤ delta → NonnegStore (depositTour m tour delta) := by
  intro tour
  induction tour with
  | nil => intro m delta hm _; exact hm
  | cons a rest ih =>
    intro m delta hm hd
    cases rest with
    | nil => exact hm
    | cons b rest2 =>
      rw [depositTour]
      exact ih _ _
        (objSet_nonneg hm (add_nonneg (objGet_getD_nonneg _ hm) hd)) hd

theorem applyOp_nonneg {m : Pher} {op : StoreOp} (hm : NonnegStore m)
    (hop : ValidOp op) : NonnegStore (applyOp m op) := by
  cases op with
  | evap rho => exact evaporate_nonneg hm hop.2
  | dep edges amount =>
    rw [applyOp]
    induction edges generalizing m with
    | nil => exact hm
    | cons e rest ih =>
      rw [List.foldl_cons]
      exact ih (objSet_nonneg hm (add_nonneg (objGet_getD_nonneg _ hm) hop)) hop

theorem applyOps_nonneg (ops : List StoreOp) : ∀ m : Pher, NonnegStore m →
    (∀ op ∈ ops, ValidOp op) → NonnegStore (ops.foldl applyOp m) := by
  induction ops with
  | nil => intro m hm _; exact hm
  | cons op rest ih =>
    intro m hm hv
    rw [List.foldl_cons]
    exact ih _ (applyOp_nonneg hm (hv op (List.mem_cons_self _ _)))
      (fun o ho => hv o (List.mem_cons_of_mem _ ho))

theorem initPheromones_nonneg (n : ℕ) : NonnegStore (initPheromones n) := by
  intro p hp
  rw [initPheromones_values n p hp]
  norm_num

theorem tourLen_nonneg (cities : List City) : ∀ tour, 0 ≤ tourLen cities tour := by
  intro tour
  induction tour with
  | nil => simp [tourLen]
  | cons a rest ih =>
    cases rest with
    | nil => simp [tourLen]
    | cons b r2 =>
      rw [tourLen]
      exact add_nonneg (distance_nonneg _ _) ih

theorem depositBest_fold_nonneg (l : List (List ℕ × ℝ)) :
    ∀ (ph : Pher) (b : WithTop ℝ) (bt : Option (List ℕ)),
      NonnegStore ph → (∀ td ∈ l, 0 ≤ td.2) →
      NonnegStore ((l.foldl depositBest (ph, b, bt)).1) := by
  induction l with
  | nil => intro ph b bt hp _; exact hp
  | cons td rest ih =>
    intro ph b bt hp hl
    rw [List.foldl_cons, depositBest_eq]
    have hd : (0 : ℝ) ≤ 1 / (td.2 + 0.000001) := by
      have := hl td (List.mem_cons_self _ _)
      positivity
    exact ih _ _ _
      (depositTour_nonneg td.1 ph _ hp hd)
      (fun td₁ h₁ => hl td₁ (List.mem_cons_of_mem _ h₁))

/-!  ## runIteration-level helpers  -/

theorem runIteration_ants_zero_aux (mo : Model) (p : Params) (starts : ℕ → ℕ)
    (draws : ℕ → ℕ → ℝ) (hn : ¬ mo.cities.length < 2) (h0 : p.ants = 0) :
    runIteration mo p starts draws
      = { mo with pher := evaporate mo.pher p.rho, iter := mo.iter + 1 } := by
  have ht : iterTours mo p starts draws = [] := by
    rw [iterTours, h0]
    rfl
  have hres : iterRes mo p starts draws
      = (evaporate mo.pher p.rho, mo.bestDist, mo.bestTour) := by
    rw [iterRes, ht]
    rfl
  rw [runIteration, if_neg hn, hres]

theorem runIteration_bestPair (mo : Model) (p : Params) (starts : ℕ → ℕ)
    (draws : ℕ → ℕ → ℝ) (h : ¬ mo.cities.length < 2) :
    ((runIteration mo p starts draws).bestDist,
        (runIteration mo p starts draws).bestTour)
      = ((iterTours mo p starts draws).zip
          ((iterTours mo p starts draws).map (tourLen mo.cities))).foldl
        updBest (mo.bestDist, mo.bestTour) := by
  rw [runIteration, if_neg h]
  show ((iterRes mo p starts draws).2.1, (iterRes mo p starts draws).2.2) = _
  rw [← depositBest_snd]
  rw [iterRes]

theorem runIteration_bestDist_le (mo : Model) (p : Params) (starts : ℕ → ℕ)
    (draws : ℕ → ℕ → ℝ) :
    (runIteration mo p starts draws).bestDist ≤ mo.bestDist := by
  by_cases h : mo.cities.length < 2
  · rw [runIteration, if_pos h]
  · have hb := congrArg Prod.fst (runIteration_bestPair mo p starts draws h)
    simp only at hb
    rw [hb]
    exact updBest_fold_fst_le _ _

theorem runIteration_fold_bestDist_le
    (calls : List (Params × (ℕ → ℕ) × (ℕ → ℕ → ℝ))) :
    ∀ mo : Model,
      (calls.foldl (fun acc c => runIteration acc c.1 c.2.1 c.2.2) mo).bestDist
        ≤ mo.bestDist := by
  induction calls with
  | nil => intro mo; exact le_refl _
  | cons c rest ih =>
    intro mo
    rw [List.foldl_cons]
    exact le_trans (ih _) (runIteration_bestDist_le mo c.1 c.2.1 c.2.2)

theorem runIteration_pher_nonneg (mo : Model) (p : Params) (starts : ℕ → ℕ)
    (draws : ℕ → ℕ → ℝ) (hrho : p.rho ≤ 1) (hm : NonnegStore mo.pher) :
    NonnegStore (runIteration mo p starts draws).pher := by
  rw [runIteration]
  by_cases h : mo.cities.length < 2
  · rw [if_pos h]
    exact hm
  · rw [if_neg h]
    show NonnegStore (iterRes mo p starts draws).1
    rw [iterRes]
    apply depositBest_fold_nonneg
    · exact evaporate_nonneg hm hrho
    · intro td htd
      have h2 := (List.of_mem_zip htd).2
      rw [List.mem_map] at h2
      obtain ⟨t, _, heq⟩ := h2
      rw [← heq]
      exact tourLen_nonneg mo.cities t

theorem toFinset_list_range (n : ℕ) : (List.range n).toFinset = Finset.range n := by
  ext x
  simp

/-!  ## Claims  -/

/-- C1: for every city set with n ≥ 2 cities, any pheromone store, parameters
and random draws, the tour an ant constructs inside runIteration has length
n+1, starts and ends at the same city, and its first n entries are a
permutation of all n city indices (no repeated interior visits): a
Hamiltonian cycle. -/
theorem tour_validity (cities : List City) (m : Pher) (alpha beta : ℝ)
    (start : ℕ) (draw : ℕ → ℝ) (hn : 2 ≤ cities.length)
    (hs : start < cities.length) :
    (antTour cities m alpha beta start draw).length = cities.length + 1 ∧
    (antTour cities m alpha beta start draw).head? = some start ∧
    (antTour cities m alpha beta start draw).getLast? = some start ∧
    (antTour cities m alpha beta start draw).dropLast.Perm
      (List.range cities.length) := by
  obtain ⟨r1, r2, r3, r4⟩ := antLoop_spec cities m alpha beta draw cities.length
    {start} [start] start 0
    (by simp)
    (by intro x hx
        rw [Finset.mem_singleton] at hx
        subst hx
        exact Finset.mem_range.mpr hs)
    (by simp)
    (List.nodup_singleton start)
  have hh : (antLoop cities m alpha beta draw cities.length {start} [start] start 0).head?
      = some start := by
    obtain ⟨t, ht⟩ := r4
    rw [← ht]
    rfl
  rw [antTour]
  refine ⟨?_, ?_, ?_, ?_⟩
  · simp [List.length_append, r3]
  · rw [List.head?_append, hh]
    rfl
  · exact List.getLast?_concat _
  · rw [List.dropLast_concat]
    exact List.perm_of_nodup_nodup_toFinset_eq r2 (List.nodup_range _)
      (by rw [r1, toFinset_list_range])

theorem tour_validity_witness :
    (antTour sampleModel.cities sampleModel.pher 1 1 0 (fun _ => 0)).length
      = sampleModel.cities.length + 1 :=
  (tour_validity sampleModel.cities sampleModel.pher 1 1 0 (fun _ => 0)
    (by decide) (by decide)).1

/-- C2 counterexample: with 2 cities, a store holding level 1 on the single
edge, rho = 1/2 and ants = 0, runIteration is not a no-op: the stored level is
multiplied by (1 - rho), so the Pheromone Store is mutated (and the iteration
counter still increments) — there is no ants = 0 guard. -/
theorem ants_zero_mutates_store :
    (runIteration sampleModel sampleParamsZeroAnts (fun _ => 0) (fun _ _ => 0)).pher
        ≠ sampleModel.pher ∧
    (runIteration sampleModel sampleParamsZeroAnts (fun _ => 0) (fun _ _ => 0)).iter
        = sampleModel.iter + 1 := by
  rw [runIteration_ants_zero_aux sampleModel sampleParamsZeroAnts (fun _ => 0)
    (fun _ _ => 0) (by decide) rfl]
  constructor
  · show evaporate sampleModel.pher sampleParamsZeroAnts.rho ≠ sampleModel.pher
    show [("0-1", (1 : ℝ) * (1 - 1/2))] ≠ [("0-1", (1 : ℝ))]
    intro h
    have h1 := List.head_eq_of_cons_eq h
    have h2 : (1 : ℝ) * (1 - 1/2) = 1 := congrArg Prod.snd h1
    norm_num at h2
  · rfl

/-- C2 amended: with ants = 0 (and ≥ 2 cities) runIteration constructs no
tours and leaves the Best-Tour Record unchanged, but it does not short-circuit:
there is no explicit guard, the Pheromone Store is still evaporated by
(1 - rho), and the iteration counter still increments. -/
theorem ants_zero_no_guard (mo : Model) (p : Params) (starts : ℕ → ℕ)
    (draws : ℕ → ℕ → ℝ) (h2 : 2 ≤ mo.cities.length) (h0 : p.ants = 0) :
    (runIteration mo p starts draws).bestDist = mo.bestDist ∧
    (runIteration mo p starts draws).bestTour = mo.bestTour ∧
    (runIteration mo p starts draws).pher = evaporate mo.pher p.rho ∧
    (runIteration mo p starts draws).iter = mo.iter + 1 := by
  rw [runIteration_ants_zero_aux mo p starts draws (by omega) h0]
  exact ⟨rfl, rfl, rfl, rfl⟩

theorem ants_zero_no_guard_witness :
    (runIteration sampleModel sampleParamsZeroAnts (fun _ => 0) (fun _ _ => 0)).bestDist
      = sampleModel.bestDist :=
  (ants_zero_no_guard sampleModel sampleParamsZeroAnts (fun _ => 0) (fun _ _ => 0)
    (by decide) rfl).1

/-- C3 counterexample: with candidates [(0, 1), (1, 1)] and r = 3, the running
remainder never drops to ≤ 0 (3 - 1 - 1 = 1 > 0); the code then returns the
FIRST candidate (index 0), not the last unvisited candidate (index 1) that the
claim names as the deterministic fallback. -/
theorem roulette_fallback_first_not_last :
    roulette [(0, (1 : ℝ)), (1, 1)] 3 = 0 ∧
    ([(0, (1 : ℝ)), (1, 1)].map Prod.fst).getLast? = some 1 ∧
    (0 : ℕ) ≠ 1 := by
  refine ⟨?_, rfl, by decide⟩
  rw [roulette]
  rw [rouletteLoop, if_neg (by norm_num)]
  rw [rouletteLoop, if_neg (by norm_num)]
  rfl

/-- C3 amended: the selected city is the first candidate at which the running
remainder drops to ≤ 0 (formalized by firstHit, which exists whenever
r < sum of vals); if the remainder never reaches ≤ 0 the deterministic
fallback is the FIRST candidate of the list (probs[0].j), not the last. -/
theorem roulette_spec (probs : List (ℕ × ℝ)) (r : ℝ) (hne : probs ≠ []) :
    roulette probs r = (firstHit probs r).getD (probs.headD (0, 0)).1 ∧
    (r < (probs.map Prod.snd).sum → (firstHit probs r).isSome) ∧
    (firstHit probs r = none → roulette probs r = (probs.headD (0, 0)).1) := by
  refine ⟨roulette_eq_firstHit probs r,
    fun h => firstHit_isSome probs r hne h, fun h => ?_⟩
  rw [roulette_eq_firstHit, h]
  rfl

theorem roulette_spec_witness :
    roulette [(5, (1 : ℝ))] 0 = (firstHit [(5, (1 : ℝ))] 0).getD 5 :=
  (roulette_spec [(5, (1 : ℝ))] 0 (List.cons_ne_nil _ _)).1

/-- C4 counterexample: on a model with best length 5 and a recorded best tour,
the click handler's add-city path reinitializes the pheromones but does NOT
clear the Best-Tour Record: the best tour and best length survive unchanged
(the claim says both must be reset). -/
theorem city_change_keeps_best :
    (onCityAdded sampleModelBest ⟨1, 1⟩).bestTour = some [0, 1, 0] ∧
    some [0, 1, 0] ≠ (none : Option (List ℕ)) ∧
    (onCityAdded sampleModelBest ⟨1, 1⟩).bestDist = ((5 : ℝ) : WithTop ℝ) ∧
    ((5 : ℝ) : WithTop ℝ) ≠ ⊤ := by
  exact ⟨rfl, by simp, rfl, WithTop.coe_ne_top⟩

/-- C4 amended: adding or removing a city reinitializes the Pheromone Store to
uniform level 1.0 for the new city count, but the Best-Tour Record is left
unchanged (best tour and best length are NOT cleared); only resetModel clears
the best record. -/
theorem city_change_spec :
    (∀ (mo : Model) (c : City),
      (onCityAdded mo c).pher = initPheromones (mo.cities.length + 1) ∧
      (∀ p ∈ (onCityAdded mo c).pher, p.2 = 1) ∧
      (onCityAdded mo c).bestDist = mo.bestDist ∧
      (onCityAdded mo c).bestTour = mo.bestTour) ∧
    (∀ (mo : Model) (i : ℕ),
      (onCityRemoved mo i).pher = initPheromones (mo.cities.eraseIdx i).length ∧
      (∀ p ∈ (onCityRemoved mo i).pher, p.2 = 1) ∧
      (onCityRemoved mo i).bestDist = mo.bestDist ∧
      (onCityRemoved mo i).bestTour = mo.bestTour) ∧
    (∀ mo : Model, (resetModel mo).bestDist = ⊤ ∧ (resetModel mo).bestTour = none) := by
  refine ⟨fun mo c => ⟨?_, ?_, rfl, rfl⟩, fun mo i => ⟨rfl, ?_, rfl, rfl⟩,
    fun mo => ⟨rfl, rfl⟩⟩
  · show initPheromones (mo.cities ++ [c]).length = initPheromones (mo.cities.length + 1)
    rw [List.length_append, List.length_singleton]
  · exact initPheromones_values _
  · exact initPheromones_values _

theorem city_change_spec_witness :
    (onCityAdded sampleModelBest ⟨1, 1⟩).bestDist = sampleModelBest.bestDist ∧
    (onCityAdded sampleModelBest ⟨1, 1⟩).pher = initPheromones 3 :=
  ⟨(city_change_spec.1 sampleModelBest ⟨1, 1⟩).2.2.1,
    (city_change_spec.1 sampleModelBest ⟨1, 1⟩).1⟩

/-- C5: across repeated runIteration calls without a reset the best length
never increases (one call and any sequence of calls); within one iteration the
best pair is exactly the updBest fold over the ants' (tour, length) pairs in
construction order, and that fold replaces the record exactly when some tour
length is strictly below the current best — no replacement on equal length,
and on ties for the minimum the first improving ant wins (all earlier ants
have strictly greater length, all later ones no smaller). -/
theorem best_record_update :
    (∀ (mo : Model) (p : Params) (starts : ℕ → ℕ) (draws : ℕ → ℕ → ℝ),
        (runIteration mo p starts draws).bestDist ≤ mo.bestDist) ∧
    (∀ (calls : List (Params × (ℕ → ℕ) × (ℕ → ℕ → ℝ))) (mo : Model),
        (calls.foldl (fun acc c => runIteration acc c.1 c.2.1 c.2.2) mo).bestDist
          ≤ mo.bestDist) ∧
    (∀ (mo : Model) (p : Params) (starts : ℕ → ℕ) (draws : ℕ → ℕ → ℝ),
        ¬ mo.cities.length < 2 →
        ((runIteration mo p starts draws).bestDist,
            (runIteration mo p starts draws).bestTour)
          = ((iterTours mo p starts draws).zip
              ((iterTours mo p starts draws).map (tourLen mo.cities))).foldl
            updBest (mo.bestDist, mo.bestTour)) ∧
    (∀ (l : List (List ℕ × ℝ)) (b : WithTop ℝ) (bt : Option (List ℕ)),
        (∀ td ∈ l, ¬((td.2 : WithTop ℝ) < b)) →
        l.foldl updBest (b, bt) = (b, bt)) ∧
    (∀ (l : List (List ℕ × ℝ)) (b : WithTop ℝ) (bt : Option (List ℕ)),
        (∃ td ∈ l, (td.2 : WithTop ℝ) < b) →
        ∃ pre td post, l = pre ++ td :: post ∧
          l.foldl updBest (b, bt) = ((td.2 : WithTop ℝ), some td.1) ∧
          (td.2 : WithTop ℝ) < b ∧
          (∀ td₁ ∈ pre, (td.2 : WithTop ℝ) < (td₁.2 : WithTop ℝ)) ∧
          (∀ td₁ ∈ post, (td.2 : WithTop ℝ) ≤ (td₁.2 : WithTop ℝ))) :=
  ⟨runIteration_bestDist_le,
    fun calls mo => runIteration_fold_bestDist_le calls mo,
    runIteration_bestPair,
    fun l b bt h => updBest_fold_no_improve l (b, bt) h,
    fun l b bt h => updBest_fold_improve l b bt h⟩

theorem best_record_update_witness :
    ((runIteration sampleModel sampleParamsZeroAnts (fun _ => 0) (fun _ _ => 0)).bestDist,
        (runIteration sampleModel sampleParamsZeroAnts (fun _ => 0) (fun _ _ => 0)).bestTour)
      = ((iterTours sampleModel sampleParamsZeroAnts (fun _ => 0) (fun _ _ => 0)).zip
          ((iterTours sampleModel sampleParamsZeroAnts (fun _ => 0) (fun _ _ => 0)).map
            (tourLen sampleModel.cities))).foldl updBest
        (sampleModel.bestDist, sampleModel.bestTour) :=
  best_record_update.2.2.1 sampleModel sampleParamsZeroAnts (fun _ => 0) (fun _ _ => 0)
    (by decide)

/-- C6: every stored pheromone level stays ≥ 0: after initialization, any
sequence of evaporate/deposit operations with valid parameters (rho in [0,1],
non-negative deposit amounts) preserves non-negativity, and runIteration
itself (whose deposit amounts 1/(length + 1e-6) are non-negative) preserves it
whenever rho ≤ 1. -/
theorem store_nonneg_invariant (n : ℕ) (ops : List StoreOp)
    (hops : ∀ op ∈ ops, ValidOp op) :
    NonnegStore (ops.foldl applyOp (initPheromones n)) ∧
    (∀ (mo : Model) (p : Params) (starts : ℕ → ℕ) (draws : ℕ → ℕ → ℝ),
      p.rho ≤ 1 → NonnegStore mo.pher →
      NonnegStore (runIteration mo p starts draws).pher) :=
  ⟨applyOps_nonneg ops (initPheromones n) (initPheromones_nonneg n) hops,
    fun mo p starts draws h1 hmo => runIteration_pher_nonneg mo p starts draws h1 hmo⟩

theorem store_nonneg_invariant_witness :
    NonnegStore ([StoreOp.evap 1].foldl applyOp (initPheromones 2)) :=
  (store_nonneg_invariant 2 [StoreOp.evap 1]
    (fun op hop => by
      rw [List.mem_singleton] at hop
      subst hop
      exact ⟨zero_le_one, le_refl 1⟩)).1

/-- C7: runIteration with fewer than 2 cities is a recoverable no-op: the
model — Pheromone Store, Best-Tour Record and iteration counter — is returned
unchanged. -/
theorem insufficient_cities_noop (mo : Model) (p : Params) (starts : ℕ → ℕ)
    (draws : ℕ → ℕ → ℝ) (h : mo.cities.length < 2) :
    runIteration mo p starts draws = mo := by
  rw [runIteration, if_pos h]

theorem insufficient_cities_noop_witness :
    runIteration sampleModelOne sampleParamsZeroAnts (fun _ => 0) (fun _ _ => 0)
      = sampleModelOne :=
  insufficient_cities_noop sampleModelOne sampleParamsZeroAnts (fun _ => 0)
    (fun _ _ => 0) (by decide)

/-- C8 counterexample: rho is used exactly as supplied, with no clamping or
validation to [0,1]: evaporating a store holding level 1 with rho = 2 yields
level -1 < 0, whereas under the claimed clamping (clamp01 2 = 1) the level
would become 0. -/
theorem evaporate_no_clamp :
    evaporate [("0-1", (1 : ℝ))] 2 = [("0-1", (-1 : ℝ))] ∧
    ((-1 : ℝ) < 0) ∧
    (1 : ℝ) * (1 - clamp01 2) = 0 := by
  refine ⟨?_, by norm_num, ?_⟩
  · show [("0-1", (1 : ℝ) * (1 - 2))] = [("0-1", (-1 : ℝ))]
    norm_num
  · rw [clamp01]
    norm_num

/-- C8 amended: the evaporation step multiplies every stored level by
(1 - rho) with rho used exactly as supplied (the code performs no clamping or
validation); in particular rho = 0 leaves every level unchanged and rho = 1
sets every level to zero. -/
theorem evaporate_spec :
    (∀ (m : Pher) (rho : ℝ),
        evaporate m rho = m.map (fun p => (p.1, p.2 * (1 - rho)))) ∧
    (∀ m : Pher, evaporate m 0 = m) ∧
    (∀ m : Pher, ∀ p ∈ evaporate m 1, p.2 = 0) :=
  ⟨evaporate_eq_map, evaporate_rho_zero, evaporate_rho_one⟩

theorem evaporate_spec_witness :
    (("0-1", (1 : ℝ) * (1 - 1)) : String × ℝ).2 = 0 :=
  evaporate_spec.2.2 [("0-1", (1 : ℝ))] ("0-1", (1 : ℝ) * (1 - 1))
    (List.mem_singleton.mpr rfl)

/-- C9: edgeKey is a canonical unordered-pair key — edgeKey a b = edgeKey b a
for all a, b — and initializing the pheromone store for n cities creates
exactly n(n-1)/2 entries with pairwise distinct keys, each with initial
level 1.0. -/
theorem edgeKey_canonical_init :
    (∀ a b : ℕ, edgeKey a b = edgeKey b a) ∧
    (∀ n : ℕ, (initPheromones n).length = n * (n - 1) / 2 ∧
      ((initPheromones n).map Prod.fst).Nodup ∧
      ∀ p ∈ initPheromones n, p.2 = 1) :=
  ⟨edgeKey_comm, fun n => ⟨initPheromones_length n, initPheromones_keys_nodup n,
    initPheromones_values n⟩⟩

theorem edgeKey_canonical_init_witness :
    edgeKey 2 5 = edgeKey 5 2 ∧
    (initPheromones 3).length = 3 * (3 - 1) / 2 ∧
    (("0-1", (1 : ℝ)) : String × ℝ).2 = 1 :=
  ⟨edgeKey_canonical_init.1 2 5, (edgeKey_canonical_init.2 3).1,
    (edgeKey_canonical_init.2 3).2.2 ("0-1", (1 : ℝ))
      (by rw [show initPheromones 3
              = [("0-1", (1 : ℝ)), ("0-2", 1), ("1-2", 1)] from rfl]
          exact List.mem_cons_self _ _)⟩

/-- C10: for n ≥ 2 cities and any store, whenever unvisited cities remain the
candidate list is non-empty and every candidate desirability is strictly
positive; the selected city is always unvisited, so the visited set grows by
exactly one per step; consequently the construction loop terminates after
exactly n-1 selection steps: n-1 iterations complete the tour (n entries),
any extra fuel is irrelevant, and any fewer iterations f leave it incomplete
with 1 + f entries. -/
theorem construction_terminates (cities : List City) (m : Pher)
    (alpha beta : ℝ) (draw : ℕ → ℝ) (start : ℕ)
    (hn : 2 ≤ cities.length) (hs : start < cities.length) :
    (∀ (visited : Finset ℕ) (cur : ℕ) (u : ℝ),
      visited ⊆ Finset.range cities.length →
      visited.card < cities.length →
      probsOf cities m alpha beta visited cur ≠ [] ∧
      (∀ p ∈ probsOf cities m alpha beta visited cur, 0 < p.2) ∧
      antStep cities m alpha beta visited cur u ∉ visited ∧
      (insert (antStep cities m alpha beta visited cur u) visited).card
        = visited.card + 1) ∧
    ((antLoop cities m alpha beta draw (cities.length - 1)
        {start} [start] start 0).length = cities.length) ∧
    (∀ fuel, cities.length - 1 ≤ fuel →
      antLoop cities m alpha beta draw fuel {start} [start] start 0
        = antLoop cities m alpha beta draw (cities.length - 1)
            {start} [start] start 0) ∧
    (∀ fuel, fuel ≤ cities.length - 1 →
      (antLoop cities m alpha beta draw fuel {start} [start] start 0).length
        = 1 + fuel) := by
  have hstart : ({start} : Finset ℕ) ⊆ Finset.range cities.length := by
    intro x hx
    rw [Finset.mem_singleton] at hx
    subst hx
    exact Finset.mem_range.mpr hs
  refine ⟨?_, ?_, ?_, ?_⟩
  · intro visited cur u hsub hcard
    obtain ⟨h1, h2⟩ := antStep_unvisited cities m alpha beta visited cur u hsub hcard
    exact ⟨probsOf_ne_nil cities m alpha beta visited cur hsub hcard,
      probsOf_snd_pos cities m alpha beta visited cur, h2,
      Finset.card_insert_of_not_mem h2⟩
  · obtain ⟨_, _, r3, _⟩ := antLoop_spec cities m alpha beta draw
      (cities.length - 1) {start} [start] start 0
      (by simp; omega) hstart (by simp) (List.nodup_singleton start)
    exact r3
  · intro fuel hf
    apply antLoop_fuel_irrel cities m alpha beta draw fuel (cities.length - 1)
      {start} [start] start 0 hstart <;> simp <;> omega
  · intro fuel hf
    rw [antLoop_length_low_fuel cities m alpha beta draw fuel {start} [start]
      start 0 hstart (by simp) (List.nodup_singleton start) (by simp; omega)]
    simp [Nat.add_comm]

theorem construction_terminates_witness :
    (antLoop sampleModel.cities sampleModel.pher 1 1 (fun _ => 0)
        (sampleModel.cities.length - 1) {0} [0] 0 0).length
      = sampleModel.cities.length :=
  (construction_terminates sampleModel.cities sampleModel.pher 1 1 (fun _ => 0) 0
    (by decide) (by decide)).2.1

end ACO
